import Mathlib

/-!
Verification of the riskscore weight-model construction and scoring engine
(src/pkrs/pkrs.py): the linear risk score, the multi-locus nested weight
tree, its matching engines, and the oram2016 / sharp2019 policy variants.

Python floats are modelled as rationals.  The natural logarithm used to
convert an odds ratio into a beta is an abstract parameter
`log : Rat -> Rat` of every definition that needs it; a claim that relies
on `math.log(1) = 0` states that equation as a hypothesis.  Locus
identities (the external pksnp genotype/allele objects, of which the core
only uses equality and hashing) are an arbitrary type `K` with decidable
equality.  Python dicts are association lists in insertion order, with the
assignment/lookup/build operations below.
-/

variable {K : Type} [DecidableEq K]

/-- Python dict lookup `d.get(k, dflt)` on an insertion-ordered association
    list whose keys are unique. -/
def dGet {V : Type} (d : List (K × V)) (k : K) (dflt : V) : V :=
  ((d.find? fun p => decide (p.1 = k)).map Prod.snd).getD dflt

/-- Python dict assignment `d[k] = v`: when the key is already present its
    value is updated in place (the key keeps its position), otherwise the
    pair is appended at the end. -/
def dInsert {V : Type} (d : List (K × V)) (k : K) (v : V) : List (K × V) :=
  if d.any fun p => decide (p.1 = k) then
    d.map fun p => if p.1 = k then (k, v) else p
  else d ++ [(k, v)]

/-- A Python dict built from a stream of key/value pairs (a dict
    comprehension, or an assignment loop): later pairs overwrite earlier
    ones, first occurrence of a key fixes its position. -/
def dOfList {V : Type} (ps : List (K × V)) : List (K × V) :=
  ps.foldl (fun d p => dInsert d p.1 p.2) []

/-- A subject genotype at one variant, at the interface boundary of the
    external pksnp objects: `gid` is the genotype identity that tree keys
    compare against, `alleles` the list of (allele identity, dosage) pairs
    returned by `getAlleles`. -/
structure GenoType (K : Type) where
  gid : K
  alleles : List (K × ℚ)

/-- Effect-size resolution, the common shape of pkrs.py lines 66, 177 and
    256: `risk.get("BETA", log (risk.get("ODDSRATIO", 1)))` -- BETA verbatim
    when present, otherwise the log of the odds ratio, which defaults to 1. -/
def resolveBeta (log : ℚ → ℚ) (betaF oddsF : Option ℚ) : ℚ :=
  betaF.getD (log (oddsF.getD 1))

/-- A raw single-locus weight record at the ingestion boundary.  `keyF` is
    the locus identity the external pksnp.Allele constructor resolves from
    the CHROM/POS/POSID/ALLELE fields; it is `none` when the record is
    unresolvable and the constructor raises, which pkrs.py lines 67-73 turn
    into a fatal read error. -/
structure RawRecord (K : Type) where
  keyF : Option K
  betaF : Option ℚ
  oddsF : Option ℚ

/-- RiskScore.ReadRisk (pkrs.py 57-74): visit the records in order,
    resolving each into an (identity, beta) risk entry; an unresolvable
    record aborts the whole run (sys.exit), modelled as `none`. -/
def ReadRisk (log : ℚ → ℚ) (rs : List (RawRecord K)) : Option (List (K × ℚ)) :=
  rs.foldlM (fun acc r => r.keyF.map fun k => acc ++ [(k, resolveBeta log r.betaF r.oddsF)]) []

/-- The RiskScore model state after __init__ (pkrs.py 34-43): the ordered
    risk entries, the flattened beta dict keyed by locus identity, and the
    denominator N. -/
structure RiskScore (K : Type) where
  risks : List (K × ℚ)
  beta : List (K × ℚ)
  N : ℚ

/-- RiskScore.__init__ (pkrs.py 34-43), after ReadRisk has produced
    `entries`: N defaults to the number of entries unless overridden, the
    assert `self.N > 0` aborts construction otherwise, and the beta dict
    maps each risk entry to its beta, a later duplicate identity
    overwriting an earlier one. -/
def RiskScore.build (entries : List (K × ℚ)) (override : Option ℚ) : Option (RiskScore K) :=
  let N : ℚ := override.getD ((entries.length : ℚ))
  if 0 < N then some ⟨entries, dOfList entries, N⟩ else none

/-- RiskScore.calc (pkrs.py 45-55): flatten the subject's genotypes into
    one allele-dosage dict (last seen wins), then the weighted sum over the
    beta dict, missing alleles counting 0, divided by N. -/
def RiskScore.calc (rs : RiskScore K) (gtdict : List (GenoType K)) : ℚ :=
  let alleles := dOfList ((gtdict.map GenoType.alleles).flatten)
  (rs.beta.foldl (fun wsum kv => wsum + kv.2 * dGet alleles kv.1 0) 0) / rs.N

/-- The arbitrarily nested dict built by ReadMultiRisk: each node is an
    insertion-ordered mapping from a locus-level key to a child, or a
    terminal float weight. -/
inductive NestedDict (K : Type) where
  | leaf (beta : ℚ)
  | node (children : List (K × NestedDict K))

/-- The `isinstance(nested_dict, dict)` test. -/
def NestedDict.isNode : NestedDict K → Bool
  | .leaf _ => false
  | .node _ => true

/-- MultiRiskScore.nested_lookup (pkrs.py 154-163): walk the children in
    insertion order; at the first key present among the subject's candidate
    keys, descend into its child with that key excluded from the
    candidates; a leaf returns its weight; exhausting the children, or an
    empty node, returns 0. -/
def nested_lookup : NestedDict K → List K → ℚ
  | .leaf beta, _ => beta
  | .node [], _ => 0
  | .node ((haplo, child) :: rest), subject =>
      if haplo ∈ subject then
        nested_lookup child (subject.filter fun gt => decide (gt ≠ haplo))
      else
        nested_lookup (.node rest) subject

/-- A raw multi-locus weight record at the ingestion boundary.  `gkeys` is
    the maximal chain of genotype identities the external pksnp.GenoType
    constructor resolves at locus indices 1, 2, ...; `akeys` the analogous
    chain of allele identities the pksnp.Allele constructor resolves in the
    sharp2019 reader; `genotype1` and `allele1` model the truthiness of the
    raw GENOTYPE_1 / ALLELE_1 fields that gate the two reading passes. -/
structure MultiRecord (K : Type) where
  genotype1 : Bool
  gkeys : List K
  allele1 : Bool
  akeys : List K
  betaF : Option ℚ
  oddsF : Option ℚ

/-- nested_read (pkrs.py 170-181, and its textual twin 249-260): `ks` is
    the chain of keys still resolvable from the current locus index on.
    When the chain ends, the record's resolved beta becomes the leaf, the
    assert demanding a nonzero beta and a dict at that position; otherwise
    descend into the child at the current key (an empty dict when absent) --
    a float there is a fatal type/attribute error -- and store the rebuilt
    child back under the key. -/
def nested_read (log : ℚ → ℚ) (r : MultiRecord K) : List K → NestedDict K → Option (NestedDict K)
  | [], d =>
      let beta := resolveBeta log r.betaF r.oddsF
      if beta ≠ 0 ∧ d.isNode then some (.leaf beta) else none
  | k :: ks, d =>
      match d with
      | .leaf _ => none
      | .node children =>
          (nested_read log r ks (dGet children k (.node []))).map fun c =>
            .node (dInsert children k c)

/-- MultiRiskScore.ReadMultiRisk (pkrs.py 166-188): fold the records whose
    GENOTYPE_1 field is truthy into the nested dict, starting from the
    empty dict; a failed insertion aborts construction. -/
def ReadMultiRisk (log : ℚ → ℚ) (rs : List (MultiRecord K)) : Option (NestedDict K) :=
  rs.foldlM (fun d r => if r.genotype1 then nested_read log r r.gkeys d else some d)
    (NestedDict.node [])

/-- The MultiRiskScore model state: the linear model plus the nested
    multi-locus weight dict. -/
structure MultiRiskScore (K : Type) extends RiskScore K where
  multi : NestedDict K

/-- MultiRiskScore.calc (pkrs.py 144-152): the linear score plus, when the
    tree match over the subject's genotype identities is truthy (nonzero),
    that weight divided by N. -/
def MultiRiskScore.calc (m : MultiRiskScore K) (gtdict : List (GenoType K)) : ℚ :=
  let wsum := RiskScore.calc m.toRiskScore gtdict
  let mrs := nested_lookup m.multi (gtdict.map GenoType.gid)
  if mrs ≠ 0 then wsum + mrs / m.N else wsum

/-- oram2016.__init__ (pkrs.py 197-201): the whole MultiRiskScore
    construction first -- the base denominator and its positivity check
    included -- then N = 2 * (N + 1).  oram2016 overrides nothing else, so
    its calc is MultiRiskScore.calc on the resulting model. -/
def oram2016.build (log : ℚ → ℚ) (entries : List (K × ℚ)) (multis : List (MultiRecord K))
    (override : Option ℚ) : Option (MultiRiskScore K) := do
  let rs ← RiskScore.build entries override
  let d ← ReadMultiRisk log multis
  some ⟨{ rs with N := 2 * (rs.N + 1) }, d⟩

/-- subject_alleles (pkrs.py 231): all allele identities across the
    subject's genotypes, flattened in order. -/
def subjectAlleles (subject : List (GenoType K)) : List K :=
  (subject.map fun gt => gt.alleles.map Prod.fst).flatten

mutual
/-- sharp2019.nested_lookup (pkrs.py 225-239): the generic genotype-keyed
    lookup is tried first and a nonzero result is returned as a singleton;
    otherwise collect, over every child key in insertion order that is
    present among the subject's alleles, the recursive results on the same,
    unchanged subject; a leaf reached here returns its weight as a
    singleton. -/
def sharp_nested_lookup (t : NestedDict K) (subject : List (GenoType K)) : List ℚ :=
  let w := nested_lookup t (subject.map GenoType.gid)
  if w ≠ 0 then [w]
  else
    match t with
    | .leaf beta => [beta]
    | .node children => sharp_collect children subject
termination_by sizeOf t

/-- The collection loop of sharp2019.nested_lookup (pkrs.py 233-236). -/
def sharp_collect (children : List (K × NestedDict K)) (subject : List (GenoType K)) : List ℚ :=
  match children with
  | [] => []
  | (haplo, child) :: rest =>
      (if haplo ∈ subjectAlleles subject then sharp_nested_lookup child subject else [])
        ++ sharp_collect rest subject
termination_by sizeOf children
end

/-- sharp2019.ReadMultiRisk (pkrs.py 241-265): the record stream is
    consumed in two full passes (itertools.tee); the genotype-keyed pass
    builds the tree first, then the allele-keyed pass (records with a
    truthy ALLELE_1) inserts into the same tree. -/
def sharp_ReadMultiRisk (log : ℚ → ℚ) (rs : List (MultiRecord K)) : Option (NestedDict K) := do
  let d ← ReadMultiRisk log rs
  rs.foldlM (fun d r => if r.allele1 then nested_read log r r.akeys d else some d) d

/-- sharp2019.__init__ (pkrs.py 212-214): base construction first (the
    base denominator and its positivity check included), then N = 1. -/
def sharp2019.build (log : ℚ → ℚ) (entries : List (K × ℚ)) (multis : List (MultiRecord K))
    (override : Option ℚ) : Option (MultiRiskScore K) := do
  let rs ← RiskScore.build entries override
  let d ← sharp_ReadMultiRisk log multis
  some ⟨{ rs with N := 1 }, d⟩

/-- sharp2019.calc (pkrs.py 216-223): the plain linear score (RiskScore's
    calc), plus the sum of the first at most two collected weights divided
    by N when that sum is nonzero. -/
def sharp2019.calc (m : MultiRiskScore K) (gtdict : List (GenoType K)) : ℚ :=
  let wsum := RiskScore.calc m.toRiskScore gtdict
  let mrs := ((sharp_nested_lookup m.multi gtdict).take 2).sum
  if mrs ≠ 0 then wsum + mrs / m.N else wsum

/-- Follows the spec's words (section 4.2): the dosage of `k` in the
    flattened allele stream, the last-seen value winning, 0 when absent. -/
def lastSeenDosage (ps : List (K × ℚ)) (k : K) : ℚ :=
  ((ps.reverse.find? fun p => decide (p.1 = k)).map Prod.snd).getD 0

/-- The chain k1 -> k2 -> ... -> kn -> beta as a nested dict. -/
def chainOf : List K → ℚ → NestedDict K
  | [], beta => .leaf beta
  | k :: ks, beta => .node [(k, chainOf ks beta)]

mutual
/-- Modelled from the spec: the sharp-style multi-path collection as claim
    C5 describes it -- an allele matched at a shallower level is excluded
    from the candidate alleles passed into the deeper levels of the same
    path.  `gids` are the subject's genotype identities, `cand` the still
    available candidate alleles. -/
def sharpExclLookup (t : NestedDict K) (gids : List K) (cand : List K) : List ℚ :=
  let w := nested_lookup t gids
  if w ≠ 0 then [w]
  else
    match t with
    | .leaf beta => [beta]
    | .node children => sharpExclCollect children gids cand
termination_by sizeOf t

/-- The collection loop of the spec-modelled exclusion variant. -/
def sharpExclCollect (children : List (K × NestedDict K)) (gids : List K) (cand : List K) :
    List ℚ :=
  match children with
  | [] => []
  | (haplo, child) :: rest =>
      (if haplo ∈ cand then
          sharpExclLookup child gids (cand.filter fun a => decide (a ≠ haplo))
        else [])
        ++ sharpExclCollect rest gids cand
termination_by sizeOf children
end

/-- The child stored under key `k` among a node's children, when present
    (the Option-valued counterpart of `dGet`). -/
def childAt (cs : List (K × NestedDict K)) (k : K) : Option (NestedDict K) :=
  (cs.find? fun q => decide (q.1 = k)).map Prod.snd

/-- Follow a chain of keys through the nested dict: the subtree sitting at
    that position, `none` when a key is missing or a leaf blocks the way.
    Two positions reached by the same path in two trees are the same
    sibling level. -/
def followPath : NestedDict K → List K → Option (NestedDict K)
  | t, [] => some t
  | .leaf _, _ :: _ => none
  | .node cs, k :: p =>
      match childAt cs k with
      | some c => followPath c p
      | none => none

/-- How the allele-keyed second pass of sharp2019.ReadMultiRisk can relate
    the genotype-pass tree to the final tree: at every position where both
    are nodes the first tree's sibling keys form, in order, a prefix of the
    second tree's, and the shared children are related recursively; a node
    may have been replaced by a chain-terminating leaf, and subtrees under
    freshly appended keys are unconstrained. -/
inductive ExtendsKeys : NestedDict K → NestedDict K → Prop where
  | leaf (b : ℚ) : ExtendsKeys (.leaf b) (.leaf b)
  | clobber (cs : List (K × NestedDict K)) (b : ℚ) : ExtendsKeys (.node cs) (.leaf b)
  | node (cs cs' : List (K × NestedDict K))
      (hkeys : ∃ rest, cs'.map Prod.fst = cs.map Prod.fst ++ rest)
      (hch : ∀ (k : K) (c c' : NestedDict K),
        childAt cs k = some c → childAt cs' k = some c' → ExtendsKeys c c') :
      ExtendsKeys (.node cs) (.node cs')

/-! Helper lemmas about the dict operations. -/

theorem foldl_add_map {α : Type} (l : List α) (f : α → ℚ) (init : ℚ) :
    l.foldl (fun w x => w + f x) init = init + (l.map f).sum := by
  induction l generalizing init with
  | nil => simp
  | cons x l ih => simp [List.foldl_cons, ih, add_assoc]

theorem dGet_update_ne {V : Type} (d : List (K × V)) (k0 : K) (v0 : V) (k : K) (dflt : V)
    (h : k ≠ k0) :
    dGet (d.map fun p => if p.1 = k0 then (k0, v0) else p) k dflt = dGet d k dflt := by
  induction d with
  | nil => rfl
  | cons p d ih =>
    by_cases hp : p.1 = k0
    · rw [List.map_cons, if_pos hp]
      unfold dGet
      rw [List.find?_cons_of_neg _ (by simp [Ne.symm h]),
        List.find?_cons_of_neg _ (by simp [hp, Ne.symm h])]
      exact ih
    · rw [List.map_cons, if_neg hp]
      by_cases hk : p.1 = k
      · unfold dGet
        rw [List.find?_cons_of_pos _ (by simp [hk]), List.find?_cons_of_pos _ (by simp [hk])]
      · unfold dGet
        rw [List.find?_cons_of_neg _ (by simp [hk]), List.find?_cons_of_neg _ (by simp [hk])]
        exact ih

theorem dGet_update_self {V : Type} (d : List (K × V)) (k0 : K) (v0 : V) (dflt : V)
    (h : (d.any fun p => decide (p.1 = k0)) = true) :
    dGet (d.map fun p => if p.1 = k0 then (k0, v0) else p) k0 dflt = v0 := by
  induction d with
  | nil => simp at h
  | cons p d ih =>
    by_cases hp : p.1 = k0
    · rw [List.map_cons, if_pos hp]
      unfold dGet
      rw [List.find?_cons_of_pos _ (by simp)]
      rfl
    · rw [List.map_cons, if_neg hp]
      unfold dGet
      rw [List.find?_cons_of_neg _ (by simp [hp])]
      refine ih ?_
      rw [List.any_cons, decide_eq_false hp, Bool.false_or] at h
      exact h

theorem dGet_append_new {V : Type} (d : List (K × V)) (k0 : K) (v0 : V) (k : K) (dflt : V)
    (h : (d.any fun p => decide (p.1 = k0)) = false) :
    dGet (d ++ [(k0, v0)]) k dflt = if k = k0 then v0 else dGet d k dflt := by
  induction d with
  | nil =>
    unfold dGet
    rw [List.nil_append]
    by_cases hk : k = k0
    · rw [List.find?_cons_of_pos _ (by simp [hk]), if_pos hk]
      rfl
    · have hk' : ¬ k0 = k := fun e => hk e.symm
      rw [List.find?_cons_of_neg _ (by simp [hk']), if_neg hk]
  | cons p d ih =>
    have hp : ¬ p.1 = k0 := by
      intro hp
      rw [List.any_cons, decide_eq_true hp, Bool.true_or] at h
      exact Bool.noConfusion h
    have hd : (d.any fun p => decide (p.1 = k0)) = false := by
      rw [List.any_cons, decide_eq_false hp, Bool.false_or] at h
      exact h
    by_cases hk : p.1 = k
    · have hkk0 : ¬ k = k0 := fun e => hp (hk.trans e)
      unfold dGet
      rw [List.cons_append, List.find?_cons_of_pos _ (by simp [hk]),
        List.find?_cons_of_pos _ (by simp [hk]), if_neg hkk0]
    · unfold dGet
      rw [List.cons_append, List.find?_cons_of_neg _ (by simp [hk]),
        List.find?_cons_of_neg _ (by simp [hk])]
      exact ih hd

theorem dGet_dInsert {V : Type} (d : List (K × V)) (k0 : K) (v0 : V) (k : K) (dflt : V) :
    dGet (dInsert d k0 v0) k dflt = if k = k0 then v0 else dGet d k dflt := by
  unfold dInsert
  by_cases hany : (d.any fun p => decide (p.1 = k0)) = true
  · rw [if_pos hany]
    by_cases hk : k = k0
    · rw [if_pos hk, hk]
      exact dGet_update_self d k0 v0 dflt hany
    · rw [if_neg hk]
      exact dGet_update_ne d k0 v0 k dflt hk
  · rw [if_neg hany]
    refine dGet_append_new d k0 v0 k dflt ?_
    cases hx : (d.any fun p => decide (p.1 = k0)) with
    | false => rfl
    | true => exact absurd hx hany

theorem lastSeenDosage_concat (ps : List (K × ℚ)) (k0 : K) (v0 : ℚ) (k : K) :
    lastSeenDosage (ps ++ [(k0, v0)]) k = if k = k0 then v0 else lastSeenDosage ps k := by
  unfold lastSeenDosage
  rw [List.reverse_append,
    show ([(k0, v0)] : List (K × ℚ)).reverse ++ ps.reverse = (k0, v0) :: ps.reverse from rfl]
  by_cases hk : k = k0
  · rw [List.find?_cons_of_pos _ (by simp [hk]), if_pos hk]
    rfl
  · have hk' : ¬ k0 = k := fun e => hk e.symm
    rw [List.find?_cons_of_neg _ (by simp [hk']), if_neg hk]

theorem dGet_dOfList (ps : List (K × ℚ)) (k : K) :
    dGet (dOfList ps) k 0 = lastSeenDosage ps k := by
  induction ps using List.reverseRecOn with
  | nil => rfl
  | append_singleton ps p ih =>
    rw [show dOfList (ps ++ [p]) = dInsert (dOfList ps) p.1 p.2 by
      unfold dOfList
      rw [List.foldl_append]
      rfl]
    rw [dGet_dInsert, lastSeenDosage_concat ps p.1 p.2 k, ih]

/-- C2: RiskScore.calc is the weighted sum over the beta table of
    beta times the subject's flattened allele dosage (0 when absent, the
    last-seen dosage winning on colliding identities), divided by N. -/
theorem spec_c2 (K : Type) [DecidableEq K] (rs : RiskScore K) (gtdict : List (GenoType K)) :
    RiskScore.calc rs gtdict =
      ((rs.beta.map fun kv =>
          kv.2 * lastSeenDosage ((gtdict.map GenoType.alleles).flatten) kv.1).sum) / rs.N := by
  simp only [RiskScore.calc]
  rw [foldl_add_map, zero_add]
  have hfun : (fun kv : K × ℚ =>
        kv.2 * dGet (dOfList ((gtdict.map GenoType.alleles).flatten)) kv.1 0)
      = fun kv : K × ℚ =>
        kv.2 * lastSeenDosage ((gtdict.map GenoType.alleles).flatten) kv.1 := by
    funext kv
    rw [dGet_dOfList]
  rw [hfun]

theorem nested_lookup_find_some (cs : List (K × NestedDict K)) (s : List K) (k : K)
    (c : NestedDict K) (h : cs.find? (fun kc => decide (kc.1 ∈ s)) = some (k, c)) :
    nested_lookup (NestedDict.node cs) s =
      nested_lookup c (s.filter fun gt => decide (gt ≠ k)) := by
  induction cs with
  | nil => simp [List.find?] at h
  | cons p rest ih =>
    obtain ⟨k0, c0⟩ := p
    by_cases hm : k0 ∈ s
    · rw [List.find?_cons_of_pos _ (by simpa using hm)] at h
      simp only [Option.some.injEq, Prod.mk.injEq] at h
      obtain ⟨rfl, rfl⟩ := h
      simp [nested_lookup, hm]
    · rw [List.find?_cons_of_neg _ (by simpa using hm)] at h
      have ihr := ih h
      simp only [nested_lookup, if_neg hm]
      exact ihr

theorem nested_lookup_find_none (cs : List (K × NestedDict K)) (s : List K)
    (h : cs.find? (fun kc => decide (kc.1 ∈ s)) = none) :
    nested_lookup (NestedDict.node cs) s = 0 := by
  induction cs with
  | nil => simp [nested_lookup]
  | cons p rest ih =>
    obtain ⟨k0, c0⟩ := p
    by_cases hm : k0 ∈ s
    · rw [List.find?_cons_of_pos _ (by simpa using hm)] at h
      exact Option.noConfusion h
    · rw [List.find?_cons_of_neg _ (by simpa using hm)] at h
      simp only [nested_lookup, if_neg hm]
      exact ih h

/-- C1: the generic tree matching engine returns the leaf's beta on a leaf;
    on a node it recurses into the first child whose key is among the
    candidate keys, that key excluded from the candidates; and it returns 0
    when no child key is present, a proper prefix match included. -/
theorem spec_c1 (K : Type) [DecidableEq K] :
    (∀ (beta : ℚ) (s : List K), nested_lookup (NestedDict.leaf beta) s = beta) ∧
    (∀ (cs : List (K × NestedDict K)) (s : List K) (k : K) (c : NestedDict K),
        cs.find? (fun kc => decide (kc.1 ∈ s)) = some (k, c) →
        nested_lookup (NestedDict.node cs) s =
          nested_lookup c (s.filter fun gt => decide (gt ≠ k))) ∧
    (∀ (cs : List (K × NestedDict K)) (s : List K),
        cs.find? (fun kc => decide (kc.1 ∈ s)) = none →
        nested_lookup (NestedDict.node cs) s = 0) :=
  ⟨fun beta s => by simp [nested_lookup],
   fun cs s k c h => nested_lookup_find_some cs s k c h,
   fun cs s h => nested_lookup_find_none cs s h⟩

/-- Witness for C1: a sibling pair where insertion order decides the match,
    and a subject matching only the proper prefix of the chain 1 -> 2,
    which still scores 0. -/
theorem spec_c1_witness :
    nested_lookup (NestedDict.node [((1 : ℕ), NestedDict.leaf (3 : ℚ)), (2, NestedDict.leaf 7)])
        [2, 1] = nested_lookup (NestedDict.leaf (3 : ℚ))
          ([2, 1].filter fun gt => decide (gt ≠ 1)) ∧
    nested_lookup (chainOf [1, 2] (5 : ℚ)) [(1 : ℕ)] = 0 := by
  constructor
  · exact (spec_c1 ℕ).2.1 [((1 : ℕ), NestedDict.leaf (3 : ℚ)), (2, NestedDict.leaf 7)]
      [2, 1] 1 (NestedDict.leaf 3) (by rfl)
  · have h2 := (spec_c1 ℕ).2.1 [((1 : ℕ), chainOf [2] (5 : ℚ))] [1] 1 (chainOf [2] 5) (by rfl)
    have h3 := (spec_c1 ℕ).2.2 [((2 : ℕ), chainOf [] (5 : ℚ))]
      ([1].filter fun gt => decide (gt ≠ 1)) (by rfl)
    rw [show chainOf [1, 2] (5 : ℚ) = NestedDict.node [((1 : ℕ), chainOf [2] (5 : ℚ))] from rfl,
      h2, show chainOf [2] (5 : ℚ) = NestedDict.node [((2 : ℕ), chainOf [] (5 : ℚ))] from rfl, h3]

theorem multi_calc_split (m : MultiRiskScore K) (gtdict : List (GenoType K)) :
    MultiRiskScore.calc m gtdict =
      RiskScore.calc m.toRiskScore gtdict
        + nested_lookup m.multi (gtdict.map GenoType.gid) / m.N := by
  simp only [MultiRiskScore.calc]
  by_cases h : nested_lookup m.multi (gtdict.map GenoType.gid) = 0
  · simp [h]
  · simp [h]

/-- C3: MultiRiskScore.calc is the linear score plus the generic tree match
    over the subject's genotype identities, divided by N. -/
theorem spec_c3 (K : Type) [DecidableEq K] (m : MultiRiskScore K) (gtdict : List (GenoType K)) :
    MultiRiskScore.calc m gtdict =
      RiskScore.calc m.toRiskScore gtdict
        + nested_lookup m.multi (gtdict.map GenoType.gid) / m.N :=
  multi_calc_split m gtdict

theorem RiskScore.build_eq_some {entries : List (K × ℚ)} {override : Option ℚ}
    {rs : RiskScore K} (h : RiskScore.build entries override = some rs) :
    rs = ⟨entries, dOfList entries, override.getD ((entries.length : ℚ))⟩ ∧
      0 < override.getD ((entries.length : ℚ)) := by
  simp only [RiskScore.build] at h
  split at h
  · next hpos =>
    cases h
    exact ⟨rfl, hpos⟩
  · exact Option.noConfusion h

/-- C7: the resolved effect size is BETA verbatim when present, otherwise
    the logarithm of ODDSRATIO, otherwise log 1 = 0; and ReadRisk attaches
    exactly that beta to a resolvable record's entry. -/
theorem spec_c7 (K : Type) [DecidableEq K] (log : ℚ → ℚ) (hlog : log 1 = 0)
    (betaF oddsF : Option ℚ) :
    (∀ b, betaF = some b → resolveBeta log betaF oddsF = b) ∧
    (betaF = none → ∀ o, oddsF = some o → resolveBeta log betaF oddsF = log o) ∧
    (betaF = none → oddsF = none → resolveBeta log betaF oddsF = 0) ∧
    (∀ (r : RawRecord K) (k : K), r.keyF = some k →
        ReadRisk log [r] = some [(k, resolveBeta log r.betaF r.oddsF)]) := by
  refine ⟨?_, ?_, ?_, ?_⟩
  · intro b hb
    simp [resolveBeta, hb]
  · intro hb o ho
    simp [resolveBeta, hb, ho]
  · intro hb ho
    simp [resolveBeta, hb, ho, hlog]
  · intro r k hk
    simp [ReadRisk, List.foldlM, hk]

/-- Witness for C7 at the spec's own test values, with a concrete log
    function satisfying log 1 = 0. -/
theorem spec_c7_witness :
    resolveBeta (fun q : ℚ => q - 1) (some ((1 : ℚ)/2)) none = (1 : ℚ)/2 ∧
    resolveBeta (fun q : ℚ => q - 1) none (some 2) = (fun q : ℚ => q - 1) 2 ∧
    resolveBeta (fun q : ℚ => q - 1) none none = 0 ∧
    ReadRisk (fun q : ℚ => q - 1)
        [({ keyF := some 4, betaF := none, oddsF := some 2 } : RawRecord ℕ)]
      = some [((4 : ℕ),
          resolveBeta (fun q : ℚ => q - 1)
            ({ keyF := some 4, betaF := none, oddsF := some 2 } : RawRecord ℕ).betaF
            ({ keyF := some 4, betaF := none, oddsF := some 2 } : RawRecord ℕ).oddsF)] :=
  ⟨(spec_c7 ℕ (fun q : ℚ => q - 1) (by norm_num) (some ((1 : ℚ)/2)) none).1 _ rfl,
   (spec_c7 ℕ (fun q : ℚ => q - 1) (by norm_num) none (some 2)).2.1 rfl 2 rfl,
   (spec_c7 ℕ (fun q : ℚ => q - 1) (by norm_num) none none).2.2.1 rfl rfl,
   (spec_c7 ℕ (fun q : ℚ => q - 1) (by norm_num) none (some 2)).2.2.2
     ({ keyF := some 4, betaF := none, oddsF := some 2 } : RawRecord ℕ) 4 rfl⟩

/-- C8: N defaults to the number of risk entries, an explicit override
    replaces the default, and construction succeeds exactly when the
    resulting N is positive. -/
theorem spec_c8 (K : Type) [DecidableEq K] (entries : List (K × ℚ)) (override : Option ℚ) :
    (∀ m : RiskScore K, RiskScore.build entries none = some m →
        m.N = (entries.length : ℚ)) ∧
    (∀ (x : ℚ) (m : RiskScore K), RiskScore.build entries (some x) = some m → m.N = x) ∧
    ((RiskScore.build entries override).isSome ↔
      0 < override.getD ((entries.length : ℚ))) := by
  refine ⟨?_, ?_, ?_⟩
  · intro m h
    have := (RiskScore.build_eq_some h).1
    rw [this]
    simp
  · intro x m h
    have := (RiskScore.build_eq_some h).1
    rw [this]
    simp
  · simp only [RiskScore.build]
    split
    · next hpos => simpa using hpos
    · next hneg => simpa using hneg

/-- Witness for C8: one entry defaults N to 1; an override of 5 replaces
    it; the positivity check passes on the default. -/
theorem spec_c8_witness :
    ({ risks := [((1 : ℕ), (1 : ℚ)/2)], beta := [((1 : ℕ), (1 : ℚ)/2)],
        N := (([((1 : ℕ), (1 : ℚ)/2)].length : ℚ)) } : RiskScore ℕ).N
      = (([((1 : ℕ), (1 : ℚ)/2)].length : ℚ)) ∧
    ({ risks := [((1 : ℕ), (1 : ℚ)/2)], beta := [((1 : ℕ), (1 : ℚ)/2)],
        N := (5 : ℚ) } : RiskScore ℕ).N = 5 ∧
    (RiskScore.build [((1 : ℕ), (1 : ℚ)/2)] none).isSome :=
  ⟨(spec_c8 ℕ [((1 : ℕ), (1 : ℚ)/2)] none).1 _ (by rfl),
   (spec_c8 ℕ [((1 : ℕ), (1 : ℚ)/2)] none).2.1 5 _ (by rfl),
   ((spec_c8 ℕ [((1 : ℕ), (1 : ℚ)/2)] none).2.2).mpr (by norm_num)⟩

/-- C6: the oram2016 model's effective denominator is 2 * (N + 1) with N
    the base linear-model denominator (default or override) computed first,
    and its calc is the generic single-best-chain genotype-keyed match on
    top of the linear score. -/
theorem spec_c6 (K : Type) [DecidableEq K] (log : ℚ → ℚ) (entries : List (K × ℚ))
    (multis : List (MultiRecord K)) (override : Option ℚ) (m : MultiRiskScore K)
    (h : oram2016.build log entries multis override = some m) :
    m.N = 2 * (override.getD ((entries.length : ℚ)) + 1) ∧
    ∀ g : List (GenoType K), MultiRiskScore.calc m g =
        RiskScore.calc m.toRiskScore g + nested_lookup m.multi (g.map GenoType.gid) / m.N := by
  simp only [oram2016.build, Option.bind_eq_bind', Option.bind_eq_some'] at h
  obtain ⟨rs, hrs, d, hd, hm⟩ := h
  simp only [Option.some.injEq] at hm
  subst hm
  refine ⟨?_, fun g => multi_calc_split _ g⟩
  rw [(RiskScore.build_eq_some hrs).1]

/-- Witness for C6: one weight entry, no override, so the base N is 1 and
    the effective denominator is 2 * (1 + 1) = 4. -/
theorem spec_c6_witness :
    ({ risks := [((1 : ℕ), (1 : ℚ)/2)], beta := [((1 : ℕ), (1 : ℚ)/2)],
        N := 2 * ((([((1 : ℕ), (1 : ℚ)/2)].length : ℚ)) + 1),
        multi := NestedDict.node [] } : MultiRiskScore ℕ).N
      = 2 * (((none : Option ℚ).getD (([((1 : ℕ), (1 : ℚ)/2)].length : ℚ))) + 1) :=
  (spec_c6 ℕ (fun q : ℚ => q - 1) [((1 : ℕ), (1 : ℚ)/2)] [] none _ (by rfl)).1

/-- C4: a sharp2019 model's denominator is 1 whatever the number of weight
    entries; its calc adds the sum of at most the first two collected
    weights to the plain linear score; and a successful (nonzero) generic
    genotype-keyed match is returned as a one-element list, taking
    precedence over the multi-path collection. -/
theorem spec_c4 (K : Type) [DecidableEq K] :
    (∀ (log : ℚ → ℚ) (entries : List (K × ℚ)) (multis : List (MultiRecord K))
        (override : Option ℚ) (m : MultiRiskScore K),
        sharp2019.build log entries multis override = some m → m.N = 1) ∧
    (∀ (m : MultiRiskScore K) (g : List (GenoType K)),
        sharp2019.calc m g = RiskScore.calc m.toRiskScore g
          + ((sharp_nested_lookup m.multi g).take 2).sum / m.N) ∧
    (∀ (t : NestedDict K) (s : List (GenoType K)),
        nested_lookup t (s.map GenoType.gid) ≠ 0 →
        sharp_nested_lookup t s = [nested_lookup t (s.map GenoType.gid)]) := by
  refine ⟨?_, ?_, ?_⟩
  · intro log entries multis override m h
    simp only [sharp2019.build, Option.bind_eq_bind', Option.bind_eq_some'] at h
    obtain ⟨rs, hrs, d, hd, hm⟩ := h
    simp only [Option.some.injEq] at hm
    subst hm
    rfl
  · intro m g
    simp only [sharp2019.calc]
    by_cases h : ((sharp_nested_lookup m.multi g).take 2).sum = 0
    · simp [h]
    · simp [h]
  · intro t s h
    unfold sharp_nested_lookup
    simp [h]

/-- Witness for C4: a sharp2019 model built from one weight entry has
    denominator 1, and on a tree whose root key equals the subject's
    genotype identity the generic match's value comes back as a singleton. -/
theorem spec_c4_witness :
    ({ risks := [((1 : ℕ), (1 : ℚ)/2)], beta := [((1 : ℕ), (1 : ℚ)/2)], N := (1 : ℚ),
        multi := NestedDict.node [] } : MultiRiskScore ℕ).N = 1 ∧
    sharp_nested_lookup (NestedDict.node [((5 : ℕ), NestedDict.leaf 3)])
        [({ gid := 5, alleles := [] } : GenoType ℕ)]
      = [nested_lookup (NestedDict.node [((5 : ℕ), NestedDict.leaf 3)])
          (([({ gid := 5, alleles := [] } : GenoType ℕ)]).map GenoType.gid)] :=
  ⟨(spec_c4 ℕ).1 (fun q : ℚ => q - 1) [((1 : ℕ), (1 : ℚ)/2)] [] none _ (by rfl),
   (spec_c4 ℕ).2.2 _ _ (by norm_num [nested_lookup])⟩

/-- Counterexample for C5: the tree is the single chain 10 -> 10 -> 5 over
    allele keys, and the subject has exactly one copy of allele 10 (and no
    genotype identity equal to 10).  sharp2019.nested_lookup matches allele
    10 at both chain positions and returns [5], while the collection with
    exclusion, as the claim describes it, collects nothing. -/
theorem spec_c5_counterexample :
    sharp_nested_lookup (chainOf [(10 : ℕ), 10] 5)
        [({ gid := 99, alleles := [(10, 1)] } : GenoType ℕ)] = [5] ∧
    sharpExclLookup (chainOf [(10 : ℕ), 10] 5) [99] [10] = [] := by
  constructor
  · norm_num [sharp_nested_lookup, sharp_collect, nested_lookup, subjectAlleles, chainOf]
  · norm_num [sharpExclLookup, sharpExclCollect, nested_lookup, chainOf]

/-- C5 amended: in sharp2019's multi-path collection the subject is passed
    unchanged into the deeper levels, so an allele matched at a shallower
    level is not excluded and can satisfy a deeper chain position of the
    same path: one copy of allele `a` alone satisfies the two-level chain
    a -> a -> beta.  (Only the generic genotype-keyed sub-match performs
    exclusion internally.) -/
theorem sharp_collect_nil (s : List (GenoType K)) : sharp_collect [] s = [] := by
  unfold sharp_collect
  rfl

theorem spec_c5_amended (K : Type) [DecidableEq K] (a : K) (beta : ℚ) (s : List (GenoType K))
    (hg : a ∉ s.map GenoType.gid) (ha : a ∈ subjectAlleles s) (hb : beta ≠ 0) :
    sharp_nested_lookup (chainOf [a, a] beta) s = [beta] := by
  have h1 : nested_lookup
      (NestedDict.node [(a, NestedDict.node [(a, NestedDict.leaf beta)])])
      (s.map GenoType.gid) = 0 := by
    simp [nested_lookup, hg]
  have h2 : nested_lookup (NestedDict.node [(a, NestedDict.leaf beta)])
      (s.map GenoType.gid) = 0 := by
    simp [nested_lookup, hg]
  rw [show chainOf [a, a] beta
      = NestedDict.node [(a, NestedDict.node [(a, NestedDict.leaf beta)])] from rfl]
  unfold sharp_nested_lookup
  rw [h1]
  simp only [ne_eq, not_true_eq_false, if_false, reduceIte]
  unfold sharp_collect
  simp only [ha, if_pos, sharp_collect_nil, List.append_nil]
  unfold sharp_nested_lookup
  rw [h2]
  simp only [ne_eq, not_true_eq_false, if_false, reduceIte]
  unfold sharp_collect
  simp only [ha, if_pos, sharp_collect_nil, List.append_nil]
  unfold sharp_nested_lookup
  simp [nested_lookup, hb]

/-- Witness for C5 amended: allele 7, present once in the subject, matches
    both positions of the chain 7 -> 7 -> 2. -/
theorem spec_c5_witness :
    sharp_nested_lookup (chainOf [(7 : ℕ), 7] 2)
        [({ gid := 3, alleles := [(7, 1)] } : GenoType ℕ)] = [2] :=
  spec_c5_amended ℕ 7 2 [({ gid := 3, alleles := [(7, 1)] } : GenoType ℕ)]
    (by norm_num) (by norm_num [subjectAlleles]) (by norm_num)

theorem nested_read_leaf (log : ℚ → ℚ) (r : MultiRecord K) (ks : List K) (b : ℚ) :
    nested_read log r ks (NestedDict.leaf b) = none := by
  cases ks with
  | nil => simp [nested_read, NestedDict.isNode]
  | cons k ks => simp [nested_read]

theorem nested_read_empty (log : ℚ → ℚ) (r : MultiRecord K) (ks : List K)
    (hb : resolveBeta log r.betaF r.oddsF ≠ 0) :
    nested_read log r ks (NestedDict.node []) =
      some (chainOf ks (resolveBeta log r.betaF r.oddsF)) := by
  induction ks with
  | nil => simp [nested_read, NestedDict.isNode, hb, chainOf]
  | cons k ks ih =>
    simp [nested_read, dGet, List.find?, ih, dInsert, chainOf]

theorem ReadMultiRisk_skip (log : ℚ → ℚ) (rs1 rs2 : List (MultiRecord K)) (r : MultiRecord K)
    (hr : r.genotype1 = false) :
    ReadMultiRisk log (rs1 ++ r :: rs2) = ReadMultiRisk log (rs1 ++ rs2) := by
  unfold ReadMultiRisk
  generalize NestedDict.node ([] : List (K × NestedDict K)) = d
  induction rs1 generalizing d with
  | nil => simp [List.foldlM_cons, hr]
  | cons x rs1 ih =>
    rw [List.cons_append, List.cons_append, List.foldlM_cons, List.foldlM_cons]
    by_cases hx : x.genotype1 = true
    · simp only [if_pos hx]
      cases hstep : nested_read log x x.gkeys d with
      | none => rfl
      | some d' => simpa using ih d'
    · simp only [if_neg hx]
      simpa using ih d

/-- Counterexample for C9: a record with a resolvable first genotype key
    but neither BETA nor ODDSRATIO resolves to beta = log 1 = 0, and tree
    construction fails on it (the assert demands a truthy weight) instead
    of attaching a 0-valued leaf. -/
theorem spec_c9_counterexample :
    ReadMultiRisk (fun q : ℚ => q - 1)
        [({ genotype1 := true, gkeys := [1], allele1 := false, akeys := [],
            betaF := none, oddsF := none } : MultiRecord ℕ)] = none ∧
    resolveBeta (fun q : ℚ => q - 1) none none = 0 := by
  constructor
  · norm_num [ReadMultiRisk, List.foldlM, nested_read, resolveBeta, dGet, List.find?]
  · norm_num [resolveBeta]

/-- C9 amended: a record whose GENOTYPE_1 field is not truthy is skipped
    without error wherever it sits in the stream; and a record with a
    resolvable first key whose resolved beta is nonzero, inserted into the
    empty tree, succeeds and attaches that beta as the leaf terminating its
    chain.  A record resolving to beta = 0 (neither BETA nor ODDSRATIO)
    instead fails construction with an assertion error. -/
theorem spec_c9_amended (K : Type) [DecidableEq K] :
    (∀ (log : ℚ → ℚ) (rs1 rs2 : List (MultiRecord K)) (r : MultiRecord K),
        r.genotype1 = false →
        ReadMultiRisk log (rs1 ++ r :: rs2) = ReadMultiRisk log (rs1 ++ rs2)) ∧
    (∀ (log : ℚ → ℚ) (r : MultiRecord K),
        r.genotype1 = true → r.gkeys ≠ [] →
        resolveBeta log r.betaF r.oddsF ≠ 0 →
        ReadMultiRisk log [r]
          = some (chainOf r.gkeys (resolveBeta log r.betaF r.oddsF))) := by
  constructor
  · intro log rs1 rs2 r hr
    exact ReadMultiRisk_skip log rs1 rs2 r hr
  · intro log r hg hk hb
    simp [ReadMultiRisk, List.foldlM, hg, nested_read_empty log r r.gkeys hb]

/-- Witness for C9 amended: a non-GENOTYPE_1 record is skipped, and the
    record with chain 3 -> 4 and BETA 2 builds exactly that chain. -/
theorem spec_c9_witness :
    ReadMultiRisk (fun q : ℚ => q - 1)
        [({ genotype1 := false, gkeys := [9], allele1 := false, akeys := [],
            betaF := some 1, oddsF := none } : MultiRecord ℕ)]
      = ReadMultiRisk (fun q : ℚ => q - 1) ([] : List (MultiRecord ℕ)) ∧
    ReadMultiRisk (fun q : ℚ => q - 1)
        [({ genotype1 := true, gkeys := [3, 4], allele1 := false, akeys := [],
            betaF := some 2, oddsF := none } : MultiRecord ℕ)]
      = some (chainOf [3, 4] (resolveBeta (fun q : ℚ => q - 1) (some 2) none)) :=
  ⟨(spec_c9_amended ℕ).1 (fun q : ℚ => q - 1) [] []
      ({ genotype1 := false, gkeys := [9], allele1 := false, akeys := [],
          betaF := some 1, oddsF := none } : MultiRecord ℕ) rfl,
   (spec_c9_amended ℕ).2 (fun q : ℚ => q - 1)
      ({ genotype1 := true, gkeys := [3, 4], allele1 := false, akeys := [],
          betaF := some 2, oddsF := none } : MultiRecord ℕ)
      rfl (by simp) (by norm_num [resolveBeta])⟩

theorem map_fst_update (cs : List (K × NestedDict K)) (k : K) (c : NestedDict K) :
    (cs.map fun p => if p.1 = k then (k, c) else p).map Prod.fst = cs.map Prod.fst := by
  induction cs with
  | nil => rfl
  | cons p cs ih =>
    rw [List.map_cons, List.map_cons, List.map_cons]
    by_cases hp : p.1 = k
    · rw [if_pos hp]
      exact congrArg₂ List.cons hp.symm ih
    · rw [if_neg hp]
      exact congrArg (List.cons p.1) ih

theorem keys_dInsert (cs : List (K × NestedDict K)) (k : K) (c : NestedDict K) :
    (dInsert cs k c).map Prod.fst = cs.map Prod.fst ∨
    (dInsert cs k c).map Prod.fst = cs.map Prod.fst ++ [k] := by
  unfold dInsert
  split
  · exact Or.inl (map_fst_update cs k c)
  · right
    simp

theorem nested_read_root (log : ℚ → ℚ) (r : MultiRecord K) (ks : List K)
    (cs : List (K × NestedDict K)) (t : NestedDict K)
    (h : nested_read log r ks (NestedDict.node cs) = some t) :
    (∃ b, t = NestedDict.leaf b) ∨
    ∃ cs' rest, t = NestedDict.node cs' ∧ cs'.map Prod.fst = cs.map Prod.fst ++ rest := by
  cases ks with
  | nil =>
    simp only [nested_read] at h
    split at h
    · cases h
      exact Or.inl ⟨_, rfl⟩
    · exact Option.noConfusion h
  | cons k ks =>
    simp only [nested_read] at h
    cases hrec : nested_read log r ks (dGet cs k (NestedDict.node [])) with
    | none =>
      rw [hrec] at h
      exact Option.noConfusion h
    | some c =>
      rw [hrec] at h
      simp only [Option.map_some', Option.some.injEq] at h
      subst h
      right
      rcases keys_dInsert cs k c with hk | hk
      · exact ⟨_, [], rfl, by rw [hk, List.append_nil]⟩
      · exact ⟨_, [k], rfl, hk⟩

theorem pass2_leaf (log : ℚ → ℚ) (rs : List (MultiRecord K)) (b : ℚ) (t : NestedDict K)
    (h : List.foldlM (fun d r => if r.allele1 then nested_read log r r.akeys d else some d)
        (NestedDict.leaf b) rs = some t) :
    t = NestedDict.leaf b := by
  induction rs with
  | nil =>
    simp only [List.foldlM_nil] at h
    cases h
    rfl
  | cons r rs ih =>
    rw [List.foldlM_cons] at h
    by_cases hr : r.allele1 = true
    · rw [if_pos hr, nested_read_leaf] at h
      exact Option.noConfusion h
    · rw [if_neg hr] at h
      exact ih (by simpa using h)

theorem pass2_root (log : ℚ → ℚ) (rs : List (MultiRecord K)) :
    ∀ (cs : List (K × NestedDict K)) (t : NestedDict K) (cs' : List (K × NestedDict K)),
    List.foldlM (fun d r => if r.allele1 then nested_read log r r.akeys d else some d)
        (NestedDict.node cs) rs = some t →
    t = NestedDict.node cs' →
    ∃ rest, cs'.map Prod.fst = cs.map Prod.fst ++ rest := by
  induction rs with
  | nil =>
    intro cs t cs' h ht
    simp only [List.foldlM_nil] at h
    cases h
    cases ht
    exact ⟨[], (List.append_nil _).symm⟩
  | cons r rs ih =>
    intro cs t cs' h ht
    rw [List.foldlM_cons] at h
    by_cases hr : r.allele1 = true
    · rw [if_pos hr] at h
      rw [Option.bind_eq_bind', Option.bind_eq_some'] at h
      obtain ⟨d, hstep, hrest⟩ := h
      rcases nested_read_root log r r.akeys cs d hstep with ⟨b, rfl⟩ | ⟨cs1, rest1, rfl, hkeys⟩
      · rw [pass2_leaf log rs b t hrest] at ht
        exact NestedDict.noConfusion ht
      · obtain ⟨rest2, h2⟩ := ih cs1 t cs' hrest ht
        exact ⟨rest1 ++ rest2, by rw [h2, hkeys, List.append_assoc]⟩
    · rw [if_neg hr] at h
      exact ih cs t cs' (by simpa using h) ht

theorem childAt_mem_keys {cs : List (K × NestedDict K)} {k : K} {c : NestedDict K}
    (h : childAt cs k = some c) : k ∈ cs.map Prod.fst := by
  unfold childAt at h
  cases hf : cs.find? (fun q => decide (q.1 = k)) with
  | none =>
    rw [hf] at h
    exact Option.noConfusion h
  | some q =>
    have hpred := List.find?_some hf
    have hmem := List.mem_of_find?_eq_some hf
    have hq : q.1 = k := of_decide_eq_true hpred
    exact hq ▸ List.mem_map_of_mem Prod.fst hmem

theorem childAt_isSome_of_mem {cs : List (K × NestedDict K)} {k : K}
    (h : k ∈ cs.map Prod.fst) : ∃ c, childAt cs k = some c := by
  induction cs with
  | nil => simp at h
  | cons p cs ih =>
    by_cases hp : p.1 = k
    · exact ⟨p.2, by unfold childAt; rw [List.find?_cons_of_pos _ (by simp [hp])]; rfl⟩
    · rw [List.map_cons] at h
      rcases List.mem_cons.mp h with h | h
      · exact absurd h.symm hp
      · obtain ⟨c, hc⟩ := ih h
        refine ⟨c, ?_⟩
        unfold childAt
        rw [List.find?_cons_of_neg _ (by simp [hp])]
        unfold childAt at hc
        exact hc

theorem childAt_update_self (cs : List (K × NestedDict K)) (k : K) (v : NestedDict K)
    (h : (cs.any fun p => decide (p.1 = k)) = true) :
    childAt (cs.map fun p => if p.1 = k then (k, v) else p) k = some v := by
  induction cs with
  | nil => simp at h
  | cons p cs ih =>
    by_cases hp : p.1 = k
    · unfold childAt
      rw [List.map_cons, if_pos hp, List.find?_cons_of_pos _ (by simp)]
      rfl
    · unfold childAt
      rw [List.map_cons, if_neg hp, List.find?_cons_of_neg _ (by simp [hp])]
      refine ih ?_
      rw [List.any_cons, decide_eq_false hp, Bool.false_or] at h
      exact h

theorem childAt_update_ne (cs : List (K × NestedDict K)) (k0 : K) (v : NestedDict K) (k : K)
    (h : k ≠ k0) :
    childAt (cs.map fun p => if p.1 = k0 then (k0, v) else p) k = childAt cs k := by
  induction cs with
  | nil => rfl
  | cons p cs ih =>
    by_cases hp : p.1 = k0
    · unfold childAt
      rw [List.map_cons, if_pos hp, List.find?_cons_of_neg _ (by simp [Ne.symm h]),
        List.find?_cons_of_neg _ (by simp [hp, Ne.symm h])]
      exact ih
    · rw [List.map_cons, if_neg hp]
      by_cases hk : p.1 = k
      · unfold childAt
        rw [List.find?_cons_of_pos _ (by simp [hk]), List.find?_cons_of_pos _ (by simp [hk])]
      · unfold childAt
        rw [List.find?_cons_of_neg _ (by simp [hk]), List.find?_cons_of_neg _ (by simp [hk])]
        exact ih

theorem childAt_append_new (cs : List (K × NestedDict K)) (k0 : K) (v : NestedDict K) (k : K)
    (h : (cs.any fun p => decide (p.1 = k0)) = false) :
    childAt (cs ++ [(k0, v)]) k = if k = k0 then some v else childAt cs k := by
  induction cs with
  | nil =>
    unfold childAt
    rw [List.nil_append]
    by_cases hk : k = k0
    · rw [List.find?_cons_of_pos _ (by simp [hk]), if_pos hk]
      rfl
    · have hk' : ¬ k0 = k := fun e => hk e.symm
      rw [List.find?_cons_of_neg _ (by simp [hk']), if_neg hk]
  | cons p cs ih =>
    have hp : ¬ p.1 = k0 := by
      intro hp
      rw [List.any_cons, decide_eq_true hp, Bool.true_or] at h
      exact Bool.noConfusion h
    have hd : (cs.any fun p => decide (p.1 = k0)) = false := by
      rw [List.any_cons, decide_eq_false hp, Bool.false_or] at h
      exact h
    by_cases hk : p.1 = k
    · have hkk0 : ¬ k = k0 := fun e => hp (hk.trans e)
      unfold childAt
      rw [List.cons_append, List.find?_cons_of_pos _ (by simp [hk]),
        List.find?_cons_of_pos _ (by simp [hk]), if_neg hkk0]
    · unfold childAt
      rw [List.cons_append, List.find?_cons_of_neg _ (by simp [hk]),
        List.find?_cons_of_neg _ (by simp [hk])]
      exact ih hd

theorem childAt_dInsert (cs : List (K × NestedDict K)) (k0 : K) (v : NestedDict K) (k : K) :
    childAt (dInsert cs k0 v) k = if k = k0 then some v else childAt cs k := by
  unfold dInsert
  by_cases hany : (cs.any fun p => decide (p.1 = k0)) = true
  · rw [if_pos hany]
    by_cases hk : k = k0
    · rw [if_pos hk, hk]
      exact childAt_update_self cs k0 v hany
    · rw [if_neg hk]
      exact childAt_update_ne cs k0 v k hk
  · rw [if_neg hany]
    refine childAt_append_new cs k0 v k ?_
    cases hx : (cs.any fun p => decide (p.1 = k0)) with
    | false => rfl
    | true => exact absurd hx hany

theorem sizeOf_childAt {cs : List (K × NestedDict K)} {k : K} {c : NestedDict K}
    (h : childAt cs k = some c) : sizeOf c < sizeOf (NestedDict.node cs) := by
  unfold childAt at h
  cases hf : cs.find? (fun q => decide (q.1 = k)) with
  | none =>
    rw [hf] at h
    exact Option.noConfusion h
  | some q =>
    rw [hf] at h
    simp only [Option.map_some', Option.some.injEq] at h
    have hmem := List.mem_of_find?_eq_some hf
    have h1 : sizeOf q < sizeOf cs := List.sizeOf_lt_of_mem hmem
    have h2 : sizeOf q.2 < sizeOf q := by
      obtain ⟨a, b⟩ := q
      show sizeOf b < sizeOf ((a, b) : K × NestedDict K)
      have hs : sizeOf ((a, b) : K × NestedDict K) = 1 + sizeOf a + sizeOf b := by simp
      omega
    have h3 : sizeOf (NestedDict.node cs) = 1 + sizeOf cs := by simp
    rw [h] at h2
    omega

theorem ExtendsKeys_refl : ∀ (d : NestedDict K), ExtendsKeys d d
  | .leaf b => .leaf b
  | .node cs =>
      .node cs cs ⟨[], (List.append_nil _).symm⟩
        (fun k c c' hc hc' => by
          have hcc : c = c' := by
            rw [hc] at hc'
            exact Option.some.inj hc'
          subst hcc
          exact ExtendsKeys_refl c)
termination_by d => sizeOf d
decreasing_by
  exact sizeOf_childAt hc

theorem ExtendsKeys_trans {a b : NestedDict K} (h1 : ExtendsKeys a b) :
    ∀ {c : NestedDict K}, ExtendsKeys b c → ExtendsKeys a c := by
  induction h1 with
  | leaf b0 =>
    intro c h2
    exact h2
  | clobber cs0 b0 =>
    intro c h2
    cases h2 with
    | leaf => exact .clobber cs0 b0
  | node cs0 cs0' hkeys hch ih =>
    intro c h2
    cases h2 with
    | clobber cs2 b2 => exact .clobber cs0 b2
    | node cs2 cs3 hkeys2 hch2 =>
      refine .node cs0 cs3 ?_ ?_
      · obtain ⟨r1, e1⟩ := hkeys
        obtain ⟨r2, e2⟩ := hkeys2
        exact ⟨r1 ++ r2, by rw [e2, e1, List.append_assoc]⟩
      · intro k c1 c3 h1k h3k
        have hkmem : k ∈ cs0'.map Prod.fst := by
          obtain ⟨r1, e1⟩ := hkeys
          rw [e1]
          exact List.mem_append_left _ (childAt_mem_keys h1k)
        obtain ⟨c2, h2k⟩ := childAt_isSome_of_mem hkmem
        exact ih k c1 c2 h1k h2k (hch2 k c2 c3 h2k h3k)

theorem nested_read_extends (log : ℚ → ℚ) (r : MultiRecord K) :
    ∀ (ks : List K) (d d' : NestedDict K),
    nested_read log r ks d = some d' → ExtendsKeys d d' := by
  intro ks
  induction ks with
  | nil =>
    intro d d' h
    simp only [nested_read] at h
    split at h
    · next hcond =>
      cases h
      cases d with
      | leaf b => simp [NestedDict.isNode] at hcond
      | node cs => exact .clobber cs _
    · exact Option.noConfusion h
  | cons k ks ih =>
    intro d d' h
    cases d with
    | leaf b =>
      rw [nested_read_leaf] at h
      exact Option.noConfusion h
    | node cs =>
      simp only [nested_read] at h
      cases hrec : nested_read log r ks (dGet cs k (NestedDict.node [])) with
      | none =>
        rw [hrec] at h
        exact Option.noConfusion h
      | some cNew =>
        rw [hrec] at h
        simp only [Option.map_some', Option.some.injEq] at h
        subst h
        refine .node cs (dInsert cs k cNew) ?_ ?_
        · rcases keys_dInsert cs k cNew with hk | hk
          · exact ⟨[], by rw [hk, List.append_nil]⟩
          · exact ⟨[k], hk⟩
        · intro k0 c0 c0' h0 h0'
          rw [childAt_dInsert] at h0'
          by_cases hkk : k0 = k
          · rw [if_pos hkk] at h0'
            have hc0' : c0' = cNew := (Option.some.inj h0').symm
            subst hc0'
            subst hkk
            have hdg : dGet cs k0 (NestedDict.node []) = c0 := by
              unfold dGet
              unfold childAt at h0
              rw [h0]
              rfl
            rw [hdg] at hrec
            exact ih c0 c0' hrec
          · rw [if_neg hkk] at h0'
            rw [h0] at h0'
            have hcc : c0 = c0' := Option.some.inj h0'
            subst hcc
            exact ExtendsKeys_refl c0

theorem pass2_extends (log : ℚ → ℚ) (rs : List (MultiRecord K)) :
    ∀ (d t : NestedDict K),
    List.foldlM (fun d r => if r.allele1 then nested_read log r r.akeys d else some d) d rs
      = some t →
    ExtendsKeys d t := by
  induction rs with
  | nil =>
    intro d t h
    simp only [List.foldlM_nil] at h
    cases h
    exact ExtendsKeys_refl d
  | cons r rs ih =>
    intro d t h
    rw [List.foldlM_cons] at h
    by_cases hr : r.allele1 = true
    · rw [if_pos hr, Option.bind_eq_bind', Option.bind_eq_some'] at h
      obtain ⟨d1, hstep, hrest⟩ := h
      exact ExtendsKeys_trans (nested_read_extends log r r.akeys d d1 hstep) (ih d1 t hrest)
    · rw [if_neg hr] at h
      exact ih d t (by simpa using h)

theorem ExtendsKeys_followPath {d t : NestedDict K} (h : ExtendsKeys d t) :
    ∀ (path : List K) (cs1 cs : List (K × NestedDict K)),
    followPath d path = some (NestedDict.node cs1) →
    followPath t path = some (NestedDict.node cs) →
    ∃ rest, cs.map Prod.fst = cs1.map Prod.fst ++ rest := by
  induction h with
  | leaf b =>
    intro path cs1 cs h1 h2
    cases path with
    | nil => simp [followPath] at h1
    | cons k p => simp [followPath] at h1
  | clobber cs0 b =>
    intro path cs1 cs h1 h2
    cases path with
    | nil => simp [followPath] at h2
    | cons k p => simp [followPath] at h2
  | node cs0 cs0' hkeys hch ih =>
    intro path cs1 cs h1 h2
    cases path with
    | nil =>
      simp only [followPath, Option.some.injEq, NestedDict.node.injEq] at h1 h2
      subst h1
      subst h2
      exact hkeys
    | cons k p =>
      simp only [followPath] at h1 h2
      cases hc1 : childAt cs0 k with
      | none =>
        rw [hc1] at h1
        exact Option.noConfusion h1
      | some c1x =>
        rw [hc1] at h1
        cases hc2 : childAt cs0' k with
        | none =>
          rw [hc2] at h2
          exact Option.noConfusion h2
        | some c2x =>
          rw [hc2] at h2
          exact ih k c1x c2x hc1 hc2 p cs1 cs h1 h2

/-- C10: sharp2019 reads the stream in two full passes, every
    genotype-keyed chain inserted before any allele-keyed chain.  Hence at
    ANY sibling level where the two passes' keys coexist -- any position
    reached by the same key path in the genotype-pass tree and in the
    final two-pass tree where both hold a node -- the genotype pass's
    sibling keys form, in order, a prefix of the final sibling keys:
    genotype-derived keys precede (and so outrank in matching priority)
    whatever the allele pass added there, however the two kinds of records
    interleave in the input file. -/
theorem spec_c10 (K : Type) [DecidableEq K] (log : ℚ → ℚ) (rs : List (MultiRecord K))
    (d1 t : NestedDict K) (path : List K) (cs1 cs : List (K × NestedDict K))
    (h1 : ReadMultiRisk log rs = some d1)
    (h2 : sharp_ReadMultiRisk log rs = some t)
    (hp1 : followPath d1 path = some (NestedDict.node cs1))
    (hp2 : followPath t path = some (NestedDict.node cs)) :
    ∃ rest, cs.map Prod.fst = cs1.map Prod.fst ++ rest := by
  simp only [sharp_ReadMultiRisk, Option.bind_eq_bind', Option.bind_eq_some'] at h2
  obtain ⟨d, hd, hfold⟩ := h2
  rw [h1] at hd
  simp only [Option.some.injEq] at hd
  subst hd
  exact ExtendsKeys_followPath (pass2_extends log rs d1 t hfold) path cs1 cs hp1 hp2

/-- Witness for C10, at a depth-2 mixed sibling level: the allele-keyed
    record (chain 1 -> 4) comes first in the file, the genotype-keyed
    record (chain 1 -> 2) second; under the shared key 1 the genotype-derived
    sibling key 2 still precedes the allele-derived key 4. -/
theorem spec_c10_witness :
    ∃ rest, (([((2 : ℕ), (NestedDict.leaf 3 : NestedDict ℕ)), (4, NestedDict.leaf 7)]).map
        Prod.fst)
      = (([((2 : ℕ), (NestedDict.leaf 3 : NestedDict ℕ))]).map Prod.fst) ++ rest :=
  spec_c10 ℕ (fun q : ℚ => q - 1)
    [({ genotype1 := false, gkeys := [], allele1 := true, akeys := [1, 4],
        betaF := some 7, oddsF := none } : MultiRecord ℕ),
     ({ genotype1 := true, gkeys := [1, 2], allele1 := false, akeys := [],
        betaF := some 3, oddsF := none } : MultiRecord ℕ)]
    (NestedDict.node [(1, NestedDict.node [(2, NestedDict.leaf 3)])])
    (NestedDict.node [(1, NestedDict.node [(2, NestedDict.leaf 3), (4, NestedDict.leaf 7)])])
    [1]
    [((2 : ℕ), NestedDict.leaf 3)]
    [((2 : ℕ), NestedDict.leaf 3), (4, NestedDict.leaf 7)]
    (by rfl) (by rfl) (by rfl) (by rfl)
